import Mathlib

/-!
Verification development for the `size` crate (neosmart/prettysize-rs).

The development shallowly embeds the crate's core logic:

* rational-valued model of IEEE-754 binary64 arithmetic (`F64`), used because the
  crate converts byte counts and parsed literals through `f64`;
* the unit catalog (`Unit`, `Unit.text`, `Unit.format` from src/fmt.rs);
* the magnitude-classification tables `BASE10_RULES` / `BASE2_RULES` and the
  rule-selection logic of `SizeFormatter::inner_fmt` (src/fmt.rs);
* the string parser `FromStr for Size` (src/from_str.rs);
* the unit constructors of `Size` (src/lib.rs) and the serde visitor (src/serde.rs).

Machine integers are embedded as `Int`/`Nat` with explicit bounds; `f64` values are
embedded as exact rationals together with the three non-finite values, with
round-to-nearest-even rounding at every operation, matching IEEE-754 semantics
(Rust guarantees correctly rounded decimal-to-f64 conversion and IEEE arithmetic).
-/

namespace PrettySize

/-- Smallest `i64` value, `-(2^63)`. -/
def i64Min : ℤ := -(2 ^ 63)

/-- Largest `i64` value, `2^63 - 1`. -/
def i64Max : ℤ := 2 ^ 63 - 1

/-- Largest `u64` value, `2^64 - 1`. -/
def u64Max : ℕ := 2 ^ 64 - 1

/-- Power of two as a rational, for an integer (possibly negative) exponent. -/
def qpow2 (e : ℤ) : ℚ :=
  if 0 ≤ e then ((2 ^ e.toNat : ℕ) : ℚ) else 1 / ((2 ^ (-e).toNat : ℕ) : ℚ)

/-- Power of ten as a rational, for an integer (possibly negative) exponent. -/
def qpow10 (e : ℤ) : ℚ :=
  if 0 ≤ e then ((10 ^ e.toNat : ℕ) : ℚ) else 1 / ((10 ^ (-e).toNat : ℕ) : ℚ)

/-- Truncation of a rational toward zero, the semantics of Rust `as i64` on an
in-range float value. -/
def truncQ (q : ℚ) : ℤ :=
  if 0 ≤ q then q.floor else -((-q).floor)

/-- Round a rational to the nearest integer, ties to even (IEEE-754 default
rounding applied at integer granularity). -/
def qRoundHalfEven (q : ℚ) : ℤ :=
  let f := q.floor
  let r := q - (f : ℚ)
  if r < 1 / 2 then f
  else if 1 / 2 < r then f + 1
  else if f % 2 = 0 then f else f + 1

/-- Fueled binary logarithm on naturals; total and reduces structurally. -/
def nlog2Aux : ℕ → ℕ → ℕ
  | 0, _ => 0
  | fuel + 1, n => if 2 ≤ n then nlog2Aux fuel (n / 2) + 1 else 0

/-- Binary logarithm, `nlog2 n = k` with `2^k ≤ n < 2^(k+1)` for `n ≥ 1`. -/
def nlog2 (n : ℕ) : ℕ := nlog2Aux n n

/-- Floor of the binary logarithm of a positive rational: the unique `e` with
`2^e ≤ q < 2^(e+1)`. Computed from the bit lengths of numerator and denominator
with a correction step. -/
def floorLog2Q (q : ℚ) : ℤ :=
  let e0 : ℤ := (nlog2 q.num.toNat : ℤ) - (nlog2 q.den : ℤ)
  if q < qpow2 (e0 - 1) then e0 - 2
  else if q < qpow2 e0 then e0 - 1
  else if q < qpow2 (e0 + 1) then e0
  else e0 + 1

/-- Round a positive rational to the nearest binary64-representable value
(ties to even), with unbounded exponent range above and subnormal granularity
`2^-1074` below `2^-1022`. -/
def roundPosQ (q : ℚ) : ℚ :=
  let e := floorLog2Q q
  let g : ℤ := if -1022 ≤ e then e - 52 else -1074
  (qRoundHalfEven (q * qpow2 (-g)) : ℚ) * qpow2 g

/-- Model of an IEEE-754 binary64 value: a finite value carried as an exact
rational, or one of the non-finite values. -/
inductive F64 where
  | finite (val : ℚ)
  | posInf
  | negInf
  | nan
deriving DecidableEq

/-- Round an exact rational to the nearest binary64 value, overflowing to an
infinity when the rounded magnitude reaches `2^1024`. -/
def roundF64 (q : ℚ) : F64 :=
  if q = 0 then .finite 0
  else
    let r := if 0 < q then roundPosQ q else -(roundPosQ (-q))
    if qpow2 1024 ≤ r then .posInf
    else if r ≤ -(qpow2 1024) then .negInf
    else .finite r

/-- Rust `as f64` on an integer (round to nearest). -/
def intToF64 (n : ℤ) : F64 := roundF64 (n : ℚ)

/-- Rust `as f64` on an unsigned integer (round to nearest). -/
def natToF64 (n : ℕ) : F64 := roundF64 (n : ℚ)

/-- IEEE-754 binary64 multiplication on the model. -/
def mulF64 : F64 → F64 → F64
  | .nan, _ => .nan
  | _, .nan => .nan
  | .finite a, .finite b => roundF64 (a * b)
  | .posInf, .finite b => if b = 0 then .nan else if 0 < b then .posInf else .negInf
  | .finite a, .posInf => if a = 0 then .nan else if 0 < a then .posInf else .negInf
  | .negInf, .finite b => if b = 0 then .nan else if 0 < b then .negInf else .posInf
  | .finite a, .negInf => if a = 0 then .nan else if 0 < a then .negInf else .posInf
  | .posInf, .posInf => .posInf
  | .posInf, .negInf => .negInf
  | .negInf, .posInf => .negInf
  | .negInf, .negInf => .posInf

/-- IEEE-754 binary64 division on the model. -/
def divF64 : F64 → F64 → F64
  | .nan, _ => .nan
  | _, .nan => .nan
  | .finite a, .finite b =>
    if b = 0 then (if a = 0 then .nan else if 0 < a then .posInf else .negInf)
    else roundF64 (a / b)
  | .posInf, .finite b => if 0 ≤ b then .posInf else .negInf
  | .negInf, .finite b => if 0 ≤ b then .negInf else .posInf
  | .finite _, .posInf => .finite 0
  | .finite _, .negInf => .finite 0
  | .posInf, .posInf => .nan
  | .posInf, .negInf => .nan
  | .negInf, .posInf => .nan
  | .negInf, .negInf => .nan

/-- IEEE-754 strict less-than: comparisons involving NaN are false. -/
def ltF64 : F64 → F64 → Bool
  | .nan, _ => false
  | _, .nan => false
  | .finite a, .finite b => a < b
  | .negInf, .negInf => false
  | .negInf, _ => true
  | _, .negInf => false
  | .posInf, _ => false
  | .finite _, .posInf => true

/-- Whether the value is one of the two infinities (Rust `f64::is_infinite`). -/
def isInfiniteF64 : F64 → Bool
  | .posInf => true
  | .negInf => true
  | _ => false

/-- Rust `as i64` on an `f64`: truncation toward zero, saturating at the `i64`
bounds, and 0 for NaN. -/
def f64ToI64 : F64 → ℤ
  | .nan => 0
  | .posInf => i64Max
  | .negInf => i64Min
  | .finite q =>
    let t := truncQ q
    if t < i64Min then i64Min else if i64Max < t then i64Max else t

/-- Decimal digits of a natural number as a string (via the standard decimal
representation). -/
def natRepr (n : ℕ) : String := toString n

/-- Left-pad the decimal representation of `m` with zeros to width `p`. -/
def zeroPad (m p : ℕ) : String :=
  let s := natRepr m
  String.mk (List.replicate (p - s.length) '0') ++ s

/-- Rendering of a nonnegative rational with exactly `p` digits after the
decimal point, rounding half to even — the semantics of Rust float `Display`
with an explicit precision. -/
def fmtQPos (q : ℚ) (p : ℕ) : String :=
  let n := (qRoundHalfEven (q * qpow10 (p : ℤ))).toNat
  if p = 0 then natRepr n
  else natRepr (n / 10 ^ p) ++ "." ++ zeroPad (n % 10 ^ p) p

/-- Rendering of a binary64 value with `p` digits of precision, the semantics of
a Rust format string with an explicit precision applied to an `f64`. -/
def fmtF64 (x : F64) (p : ℕ) : String :=
  match x with
  | .nan => "NaN"
  | .posInf => "inf"
  | .negInf => "-inf"
  | .finite q => if q < 0 then "-" ++ fmtQPos (-q) p else fmtQPos q p

/-! Unit catalog and styles, from src/fmt.rs. -/

/-- An enumeration of supported bases (`Base` in src/fmt.rs). -/
inductive Base where
  | base2
  | base10
deriving DecidableEq

/-- A collection of units used to refer to sizes (`Unit` in src/fmt.rs). -/
inductive Unit where
  | byte
  | kibibyte
  | kilobyte
  | mebibyte
  | megabyte
  | gibibyte
  | gigabyte
  | tebibyte
  | terabyte
  | pebibyte
  | petabyte
  | exbibyte
  | exabyte
deriving DecidableEq

/-- An enumeration of supported styles (`Style` in src/fmt.rs). -/
inductive Style where
  | default
  | abbreviated
  | abbreviatedLowercase
  | full
  | fullLowercase
deriving DecidableEq

/-- The four textual spellings of a unit (`Unit::text` in src/fmt.rs): full
lowercase, full capitalized, abbreviated lowercase, abbreviated. -/
def Unit.text : Unit → String × String × String × String
  | .byte => ("byte", "Byte", "b", "B")
  | .kilobyte => ("kilobyte", "Kilobyte", "kb", "KB")
  | .megabyte => ("megabyte", "Megabyte", "mb", "MB")
  | .gigabyte => ("gigabyte", "Gigabyte", "gb", "GB")
  | .terabyte => ("terabyte", "Terabyte", "tb", "TB")
  | .petabyte => ("petabyte", "Petabyte", "pb", "PB")
  | .exabyte => ("exabyte", "Exabyte", "eb", "EB")
  | .kibibyte => ("kibibyte", "Kibibyte", "kib", "KiB")
  | .mebibyte => ("mebibyte", "Mebibyte", "mib", "MiB")
  | .gibibyte => ("gibibyte", "Gibibyte", "gib", "GiB")
  | .pebibyte => ("pebibyte", "Pebibyte", "pib", "PiB")
  | .tebibyte => ("tebibyte", "Tebibyte", "tib", "TiB")
  | .exbibyte => ("exbibyte", "Exbibyte", "eib", "EiB")

/-- The unit-suffix rendering of `Unit::format` (src/fmt.rs) for the four
concrete (non-`Default`) styles: the pattern match on `(style, bytes)` with the
singular arms for `bytes == 1` first. -/
def Unit.formatConcrete (u : Unit) (bytes : ℕ) (style : Style) : String :=
  match style, bytes with
  | .fullLowercase, 1 => " " ++ u.text.1
  | .full, 1 => " " ++ u.text.2.1
  | .abbreviatedLowercase, 1 => " " ++ u.text.2.2.1
  | .abbreviated, 1 => " " ++ u.text.2.2.2
  | .fullLowercase, _ => " " ++ u.text.1 ++ "s"
  | .full, _ => " " ++ u.text.2.1 ++ "s"
  | .abbreviatedLowercase, _ => " " ++ u.text.2.2.1
  | .abbreviated, _ => " " ++ u.text.2.2.2
  | .default, _ => ""

/-- `Unit::format` (src/fmt.rs): the `Default` style dispatches to
`FullLowercase` for the byte unit and to `Abbreviated` otherwise; concrete
styles render directly. The source expresses the dispatch as a recursive call;
it is inlined here into a helper to keep the recursion structural. -/
def Unit.format (u : Unit) (bytes : ℕ) (style : Style) : String :=
  match style with
  | .default =>
    match u with
    | .byte => u.formatConcrete bytes .fullLowercase
    | _ => u.formatConcrete bytes .abbreviated
  | s => u.formatConcrete bytes s

/-! Size-constant catalog, from the `consts` module of src/lib.rs. -/

/-- Base-10 kilobyte, 1000 bytes. -/
def KILOBYTE : ℕ := 1000

/-- Base-10 megabyte. -/
def MEGABYTE : ℕ := 1000 * KILOBYTE

/-- Base-10 gigabyte. -/
def GIGABYTE : ℕ := 1000 * MEGABYTE

/-- Base-10 terabyte. -/
def TERABYTE : ℕ := 1000 * GIGABYTE

/-- Base-10 petabyte. -/
def PETABYTE : ℕ := 1000 * TERABYTE

/-- Base-10 exabyte. -/
def EXABYTE : ℕ := 1000 * PETABYTE

/-- Base-2 kibibyte, `2^10` bytes. -/
def KIBIBYTE : ℕ := 2 ^ 10

/-- Base-2 mebibyte, `2^20` bytes. -/
def MEBIBYTE : ℕ := 2 ^ 20

/-- Base-2 gibibyte, `2^30` bytes. -/
def GIBIBYTE : ℕ := 2 ^ 30

/-- Base-2 tebibyte, `2^40` bytes. -/
def TEBIBYTE : ℕ := 2 ^ 40

/-- Base-2 pebibyte, `2^50` bytes. -/
def PEBIBYTE : ℕ := 2 ^ 50

/-- Base-2 exbibyte, `2^60` bytes. -/
def EXBIBYTE : ℕ := 2 ^ 60

/-! The classification tables, from src/fmt.rs. Each source `FormatRule` holds
an exclusive upper bound `less_than`, a formatter closure and a unit.  Every
non-byte closure has the shape
`write bytes as f64 / (DIVISOR as f64) with precision scale.unwrap_or(DEFAULT)`;
the byte-unit closure prints the integer itself and ignores the scale.  The
embedding records, for each rule, `less_than`, the closure's divisor constant,
the closure's default precision, whether it is the byte closure, and the unit. -/

/-- One entry of a classification table (`FormatRule` in src/fmt.rs). -/
structure FormatRule where
  less_than : ℕ
  divisor : ℕ
  scale : ℕ
  isByteRule : Bool
  unit : Unit
deriving DecidableEq

/-- The rendering performed by a rule's formatter closure (src/fmt.rs): the
byte rule prints the `u64` itself; every other rule prints
`bytes as f64 / divisor as f64` at precision `scale.unwrap_or(default)`. -/
def ruleRender (r : FormatRule) (bytes : ℕ) (scaleOpt : Option ℕ) : String :=
  if r.isByteRule then natRepr bytes
  else fmtF64 (divF64 (natToF64 bytes) (natToF64 r.divisor)) (scaleOpt.getD r.scale)

/-- `BASE10_RULES` (src/fmt.rs): 17 rules covering bytes through exabytes. -/
def BASE10_RULES : List FormatRule :=
  [ ⟨KILOBYTE, 1, 0, true, .byte⟩,
    ⟨10 * KILOBYTE, KILOBYTE, 2, false, .kilobyte⟩,
    ⟨100 * KILOBYTE, KILOBYTE, 1, false, .kilobyte⟩,
    ⟨MEGABYTE, KILOBYTE, 0, false, .kilobyte⟩,
    ⟨10 * MEGABYTE, MEGABYTE, 2, false, .megabyte⟩,
    ⟨100 * MEGABYTE, MEGABYTE, 1, false, .megabyte⟩,
    ⟨GIGABYTE, MEGABYTE, 0, false, .megabyte⟩,
    ⟨10 * GIGABYTE, GIGABYTE, 2, false, .gigabyte⟩,
    ⟨100 * GIGABYTE, GIGABYTE, 1, false, .gigabyte⟩,
    ⟨TERABYTE, GIGABYTE, 0, false, .gigabyte⟩,
    ⟨10 * TERABYTE, TERABYTE, 2, false, .terabyte⟩,
    ⟨100 * TERABYTE, TERABYTE, 1, false, .terabyte⟩,
    ⟨PETABYTE, TERABYTE, 0, false, .terabyte⟩,
    ⟨10 * PETABYTE, PETABYTE, 2, false, .petabyte⟩,
    ⟨100 * PETABYTE, PETABYTE, 1, false, .petabyte⟩,
    ⟨EXABYTE, PETABYTE, 0, false, .petabyte⟩,
    ⟨u64Max, EXABYTE, 0, false, .exabyte⟩ ]

/-- `BASE2_RULES` (src/fmt.rs): 17 rules covering bytes through exbibytes. -/
def BASE2_RULES : List FormatRule :=
  [ ⟨KIBIBYTE, 1, 0, true, .byte⟩,
    ⟨10 * KIBIBYTE, KIBIBYTE, 2, false, .kibibyte⟩,
    ⟨100 * KIBIBYTE, KIBIBYTE, 1, false, .kibibyte⟩,
    ⟨MEBIBYTE, KIBIBYTE, 0, false, .kibibyte⟩,
    ⟨10 * MEBIBYTE, MEBIBYTE, 2, false, .mebibyte⟩,
    ⟨100 * MEBIBYTE, MEBIBYTE, 1, false, .mebibyte⟩,
    ⟨GIBIBYTE, MEBIBYTE, 0, false, .mebibyte⟩,
    ⟨10 * GIBIBYTE, GIBIBYTE, 2, false, .gibibyte⟩,
    ⟨100 * GIBIBYTE, GIBIBYTE, 1, false, .gibibyte⟩,
    ⟨TEBIBYTE, GIBIBYTE, 0, false, .gibibyte⟩,
    ⟨10 * TEBIBYTE, TEBIBYTE, 2, false, .tebibyte⟩,
    ⟨100 * TEBIBYTE, TEBIBYTE, 1, false, .tebibyte⟩,
    ⟨PEBIBYTE, TEBIBYTE, 0, false, .tebibyte⟩,
    ⟨10 * PEBIBYTE, PEBIBYTE, 2, false, .pebibyte⟩,
    ⟨100 * PEBIBYTE, PEBIBYTE, 1, false, .pebibyte⟩,
    ⟨EXBIBYTE, PEBIBYTE, 0, false, .pebibyte⟩,
    ⟨u64Max, EXBIBYTE, 0, false, .exbibyte⟩ ]

/-- The rule table selected for a base. -/
def rulesOf : Base → List FormatRule
  | .base2 => BASE2_RULES
  | .base10 => BASE10_RULES

/-- The rule-selection logic of `SizeFormatter::inner_fmt` (src/fmt.rs):
`binary_search_by_key(&bytes, |rule| rule.less_than)` on the sorted table
returns `Ok(index)` when some rule's threshold equals `bytes` exactly — then the
*next* rule `index + 1` is used — and otherwise `Err(index)` with `index` the
insertion point, i.e. the number of thresholds not exceeding `bytes`, which is
the first rule whose threshold is greater. -/
def classifyIdx (rules : List FormatRule) (bytes : ℕ) : ℕ :=
  match rules.findIdx? (fun r => r.less_than == bytes) with
  | some index => index + 1
  | none => rules.findIdx (fun r => decide (bytes < r.less_than))

/-- A placeholder rule; rule lookup in the source indexes the table directly
(panicking when out of bounds), which the safety analysis below proves cannot
happen for magnitudes reachable from an `i64`. -/
def dummyRule : FormatRule := ⟨0, 1, 0, true, .byte⟩

/-- The rule chosen for a byte count, `rules[classifyIdx]`. -/
def classify (rules : List FormatRule) (bytes : ℕ) : FormatRule :=
  (rules.getD (classifyIdx rules bytes) dummyRule)

/-- `i64::checked_abs` (used by `inner_fmt`): `None` exactly at `i64::MIN`. -/
def checkedAbs (x : ℤ) : Option ℤ :=
  if x = i64Min then none else some (-x)

/-- The nonnegative magnitude computed by the sign-handling match of
`SizeFormatter::inner_fmt` (src/fmt.rs): nonnegative values are cast to `u64`;
for negative values `checked_abs` is taken, substituting `i64::MAX` when it
overflows (only at `i64::MIN`). -/
def magnitude (x : ℤ) : ℕ :=
  if 0 ≤ x then x.toNat
  else
    match checkedAbs x with
    | some abs => abs.toNat
    | none => i64Max.toNat

/-- The body of `inner_fmt` after sign handling: select a rule for the
magnitude, render the number, then render the unit suffix. -/
def fmtBody (base : Base) (style : Style) (scaleOpt : Option ℕ) (bytes : ℕ) : String :=
  let rule := classify (rulesOf base) bytes
  ruleRender rule bytes scaleOpt ++ rule.unit.format bytes style

/-- `SizeFormatter::inner_fmt` (src/fmt.rs): emit a sign for negative input and
continue with the magnitude. -/
def inner_fmt (base : Base) (style : Style) (scaleOpt : Option ℕ) (x : ℤ) : String :=
  if 0 ≤ x then fmtBody base style scaleOpt x.toNat
  else "-" ++ fmtBody base style scaleOpt (magnitude x)

/-- Modelled from the spec: the constant `DEFAULT_SCALE` is referenced by
src/fmt.rs but its declaration is not among the files on hand. The
specification's formatter contract has no precision override — the digit
count comes from the selected rule ("three consecutive brackets at 2, 1, and
0 decimal digits") — and every documented output of the crate (e.g.
"1.02 KB", "1.28 MiB") exhibits the per-rule defaults, so the default scale
is `None` and `scale.unwrap_or` falls through to the rule's precision. -/
def DEFAULT_SCALE : Option ℕ := none

/-- `SizeFormatter::format` with an explicitly chosen base and style and the
default scale, the configuration exercised by the claims. -/
def formatBytes (base : Base) (style : Style) (x : ℤ) : String :=
  inner_fmt base style DEFAULT_SCALE x

/-! The string parser, from src/from_str.rs (`impl FromStr for Size`).
Strings are processed as character lists.  The embedding models the ASCII
fragment of Rust's `str::trim` / `char::to_lowercase` (all recognized unit
names and all inputs exercised by the specification are ASCII). -/

/-- Whitespace recognized by the model of Rust `str::trim` (the ASCII
whitespace characters). -/
def isWsChar (c : Char) : Bool :=
  c = ' ' ∨ c = '\t' ∨ c = '\n' ∨ c = '\r' ∨ c = '\x0b' ∨ c = '\x0c'

/-- Remove trailing whitespace (Rust `str::trim_end`). -/
def trimEndChars (s : List Char) : List Char :=
  (s.reverse.dropWhile isWsChar).reverse

/-- Remove leading and trailing whitespace (Rust `str::trim`). -/
def trimChars (s : List Char) : List Char :=
  trimEndChars (s.dropWhile isWsChar)

/-- The character-granularity split after the rightmost character that is not
an ASCII alphabetic letter.  This is the split the parser performs whenever
that character is a single-byte (ASCII) character — which the development
proves below — but it is not the source's split itself: the source computes a
byte index and can panic (see `splitNumUnit?`). -/
def splitNumUnit (s : List Char) : List Char × List Char :=
  match s.reverse.findIdx? (fun c => !c.isAlpha) with
  | none => (s, [])
  | some j => (s.take (s.length - j), s.drop (s.length - j))

/-- Length in bytes of the UTF-8 encoding of a character list. -/
def utf8Length (s : List Char) : ℕ :=
  (s.map Char.utf8Size).sum

/-- Rust `str::rfind(pred)`: the byte index of the start of the last
character satisfying the predicate, i.e. the UTF-8 length of the prefix of
characters before it. -/
def rfindByteIdx (p : Char → Bool) (s : List Char) : Option ℕ :=
  match s.reverse.findIdx? p with
  | none => none
  | some j => some (utf8Length (s.take (s.length - 1 - j)))

/-- Rust `str::split_at(i)` on a UTF-8 string, at a byte index: splits into
the characters occupying the first `i` bytes and the rest; `none` models the
panic raised when `i` is not on a character boundary (it falls strictly
inside a multi-byte character) or exceeds the string's byte length. -/
def splitAtByte : List Char → ℕ → Option (List Char × List Char)
  | s, 0 => some ([], s)
  | [], _ => none
  | c :: rest, i =>
    if i < c.utf8Size then none
    else
      match splitAtByte rest (i - c.utf8Size) with
      | none => none
      | some (a, b) => some (c :: a, b)

/-- The numeric/unit split of `from_str` (src/from_str.rs):
`s.rfind(|c| !c.is_ascii_alphabetic()).map(|i| i + 1)` computes a byte index
one past the start of the rightmost non-alphabetic character, and
`s.split_at(idx)` splits there; when no such character exists the whole
string is the number with an empty unit.  Because `idx` is a byte index,
`split_at` panics (modelled as `none`) whenever that character is multi-byte. -/
def splitNumUnit? (s : List Char) : Option (List Char × List Char) :=
  match rfindByteIdx (fun c => !c.isAlpha) s with
  | none => some (s, [])
  | some i => splitAtByte s (i + 1)

/-- Decimal digit test used by the float-literal grammar. -/
def isDigitChar (c : Char) : Bool := '0' ≤ c ∧ c ≤ '9'

/-- Numeric value of a digit string. -/
def digitsVal (ds : List Char) : ℕ :=
  ds.foldl (fun a c => 10 * a + (c.toNat - '0'.toNat)) 0

/-- Consume an optional leading sign; returns whether the value is negated. -/
def parseSign : List Char → Bool × List Char
  | [] => (false, [])
  | c :: rest =>
    if c = '+' then (false, rest)
    else if c = '-' then (true, rest)
    else (false, c :: rest)

/-- The exponent suffix of the float grammar: empty, or `e`/`E`, an optional
sign and a nonempty digit string consuming the rest of the input. -/
def parseExponent : List Char → Option ℤ
  | [] => some 0
  | e :: rest =>
    if e = 'e' ∨ e = 'E' then
      let (eneg, r1) := parseSign rest
      let ds := r1.takeWhile isDigitChar
      let r2 := r1.dropWhile isDigitChar
      if ds = [] ∨ r2 ≠ [] then none
      else some (if eneg then -(digitsVal ds : ℤ) else (digitsVal ds : ℤ))
    else none

/-- Rust `str::parse::<f64>()`: the grammar
`Sign? (inf | infinity | nan | Digits .? Digits? Exp? | . Digits Exp?)`
(case-insensitive special values), evaluated exactly and then rounded to the
nearest binary64 value — Rust guarantees correctly rounded conversion. -/
def parseF64 (s0 : List Char) : Option F64 :=
  let (neg, s) := parseSign s0
  let ls := s.map Char.toLower
  if ls = "inf".toList ∨ ls = "infinity".toList then
    some (if neg then .negInf else .posInf)
  else if ls = "nan".toList then some .nan
  else
    let ds1 := s.takeWhile isDigitChar
    let r1 := s.dropWhile isDigitChar
    let cont : Option (List Char × ℚ) :=
      match r1 with
      | [] => if ds1 = [] then none else some ([], (digitsVal ds1 : ℚ))
      | c :: r2 =>
        if c = '.' then
          let ds2 := r2.takeWhile isDigitChar
          let r3 := r2.dropWhile isDigitChar
          if ds1 = [] ∧ ds2 = [] then none
          else some (r3, (digitsVal ds1 : ℚ) + (digitsVal ds2 : ℚ) / qpow10 (ds2.length : ℤ))
        else if ds1 = [] then none else some (c :: r2, (digitsVal ds1 : ℚ))
    match cont with
    | none => none
    | some (rest, mant) =>
      match parseExponent rest with
      | none => none
      | some ex =>
        let v := mant * qpow10 ex
        some (roundF64 (if neg then -v else v))

/-- Rust `str::trim_end_matches('s')`: removes every trailing `s`. -/
def trimEndMatchesS (s : List Char) : List Char :=
  (s.reverse.dropWhile (fun c => c = 's')).reverse

/-- The unit-suffix match of `from_str` (src/from_str.rs), applied to the
lowercased suffix after trailing-`s` removal: the 13 recognized names (short
and long spelling each) and their multipliers; anything else is a parse error. -/
def unitMultiplier? (u : List Char) : Option ℕ :=
  if u = [] ∨ u = "b".toList ∨ u = "byte".toList then some 1
  else if u = "kb".toList ∨ u = "kilobyte".toList then some KILOBYTE
  else if u = "mb".toList ∨ u = "megabyte".toList then some MEGABYTE
  else if u = "gb".toList ∨ u = "gigabyte".toList then some GIGABYTE
  else if u = "tb".toList ∨ u = "terabyte".toList then some TERABYTE
  else if u = "pb".toList ∨ u = "petabyte".toList then some PETABYTE
  else if u = "eb".toList ∨ u = "exabyte".toList then some EXABYTE
  else if u = "kib".toList ∨ u = "kibibyte".toList then some KIBIBYTE
  else if u = "mib".toList ∨ u = "mebibyte".toList then some MEBIBYTE
  else if u = "gib".toList ∨ u = "gibibyte".toList then some GIBIBYTE
  else if u = "tib".toList ∨ u = "tebibyte".toList then some TEBIBYTE
  else if u = "pib".toList ∨ u = "pebibyte".toList then some PEBIBYTE
  else if u = "eib".toList ∨ u = "exbibyte".toList then some EXBIBYTE
  else none

/-- The observable outcomes of `FromStr::from_str` for `Size`: a parsed byte
count, the opaque `ParseSizeError`, or the `str::split_at` panic on a byte
index that is not a character boundary. -/
inductive ParseOutcome where
  | ok (bytes : ℤ)
  | err
  | panic
deriving DecidableEq

/-- `FromStr::from_str` for `Size` (src/from_str.rs): trim, split into numeric
literal and unit suffix at the byte index after the rightmost non-alphabetic
character (a split that panics when that index is not a character boundary),
parse the literal as `f64`, normalize and look up the suffix, multiply and
truncate into the signed 64-bit byte count. -/
def sizeFromStr (s : String) : ParseOutcome :=
  let t := trimChars s.toList
  match splitNumUnit? t with
  | none => .panic
  | some (numStr, unitStr) =>
    match parseF64 (trimEndChars numStr) with
    | none => .err
    | some number =>
      match unitMultiplier? (trimEndMatchesS (unitStr.map Char.toLower)) with
      | none => .err
      | some multiplier => .ok (f64ToI64 (mulF64 number (intToF64 (multiplier : ℤ))))

/-! The `Size` value type and its constructors, from src/lib.rs.  In `std`
mode the intermediate type is `f64`: each `from_<unit>` constructor computes
`(value.as_() * CONSTANT as Intermediate) as i64`. -/

/-- The core `Size` type (src/lib.rs): a signed 64-bit count of bytes. -/
structure Size where
  bytes : ℤ
deriving DecidableEq

/-- `Size::from_bytes` (src/lib.rs): stores the byte count exactly. -/
def Size.from_bytes (bytes : ℤ) : Size := ⟨bytes⟩

/-- `Size::from_kilobytes` (src/lib.rs): `(value * KILOBYTE as f64) as i64`. -/
def Size.from_kilobytes (value : F64) : Size :=
  ⟨f64ToI64 (mulF64 value (intToF64 (KILOBYTE : ℤ)))⟩

/-- `Size::from_megabytes` (src/lib.rs). -/
def Size.from_megabytes (value : F64) : Size :=
  ⟨f64ToI64 (mulF64 value (intToF64 (MEGABYTE : ℤ)))⟩

/-- `Size::from_gigabytes` (src/lib.rs). -/
def Size.from_gigabytes (value : F64) : Size :=
  ⟨f64ToI64 (mulF64 value (intToF64 (GIGABYTE : ℤ)))⟩

/-- `Size::from_terabytes` (src/lib.rs). -/
def Size.from_terabytes (value : F64) : Size :=
  ⟨f64ToI64 (mulF64 value (intToF64 (TERABYTE : ℤ)))⟩

/-- `Size::from_petabytes` (src/lib.rs). -/
def Size.from_petabytes (value : F64) : Size :=
  ⟨f64ToI64 (mulF64 value (intToF64 (PETABYTE : ℤ)))⟩

/-- `Size::from_exabytes` (src/lib.rs). -/
def Size.from_exabytes (value : F64) : Size :=
  ⟨f64ToI64 (mulF64 value (intToF64 (EXABYTE : ℤ)))⟩

/-- `Size::from_kibibytes` (src/lib.rs). -/
def Size.from_kibibytes (value : F64) : Size :=
  ⟨f64ToI64 (mulF64 value (intToF64 (KIBIBYTE : ℤ)))⟩

/-- `Size::from_mebibytes` (src/lib.rs). -/
def Size.from_mebibytes (value : F64) : Size :=
  ⟨f64ToI64 (mulF64 value (intToF64 (MEBIBYTE : ℤ)))⟩

/-- `Size::from_gibibytes` (src/lib.rs). -/
def Size.from_gibibytes (value : F64) : Size :=
  ⟨f64ToI64 (mulF64 value (intToF64 (GIBIBYTE : ℤ)))⟩

/-- `Size::from_tebibytes` (src/lib.rs). -/
def Size.from_tebibytes (value : F64) : Size :=
  ⟨f64ToI64 (mulF64 value (intToF64 (TEBIBYTE : ℤ)))⟩

/-- `Size::from_pebibytes` (src/lib.rs). -/
def Size.from_pebibytes (value : F64) : Size :=
  ⟨f64ToI64 (mulF64 value (intToF64 (PEBIBYTE : ℤ)))⟩

/-- `Size::from_exbibytes` (src/lib.rs). -/
def Size.from_exbibytes (value : F64) : Size :=
  ⟨f64ToI64 (mulF64 value (intToF64 (EXBIBYTE : ℤ)))⟩

/-- The byte multiplier the unit catalog assigns to each unit (spec section
"Data Model": 1, powers of 1000, powers of 1024). -/
def Unit.multiplier : Unit → ℕ
  | .byte => 1
  | .kilobyte => KILOBYTE
  | .megabyte => MEGABYTE
  | .gigabyte => GIGABYTE
  | .terabyte => TERABYTE
  | .petabyte => PETABYTE
  | .exabyte => EXABYTE
  | .kibibyte => KIBIBYTE
  | .mebibyte => MEBIBYTE
  | .gibibyte => GIBIBYTE
  | .tebibyte => TEBIBYTE
  | .pebibyte => PEBIBYTE
  | .exbibyte => EXBIBYTE

/-- The non-byte unit constructor that the source defines for each unit,
gathered into one table for comparison with the individual definitions. -/
def fromUnit (u : Unit) (value : F64) : Size :=
  match u with
  | .byte => ⟨f64ToI64 value⟩
  | .kilobyte => Size.from_kilobytes value
  | .megabyte => Size.from_megabytes value
  | .gigabyte => Size.from_gigabytes value
  | .terabyte => Size.from_terabytes value
  | .petabyte => Size.from_petabytes value
  | .exabyte => Size.from_exabytes value
  | .kibibyte => Size.from_kibibytes value
  | .mebibyte => Size.from_mebibytes value
  | .gibibyte => Size.from_gibibytes value
  | .tebibyte => Size.from_tebibytes value
  | .pebibyte => Size.from_pebibytes value
  | .exbibyte => Size.from_exbibytes value

/-! The serde boundary, from src/serde.rs. Errors are modelled as `none`. -/

/-- `SizeVisitor::visit_i64` (src/serde.rs): accepts any signed 64-bit value
exactly. -/
def visit_i64 (value : ℤ) : Option Size := some ⟨value⟩

/-- `SizeVisitor::visit_u64` (src/serde.rs): rejects unsigned values exceeding
`i64::MAX` with a range error. -/
def visit_u64 (value : ℕ) : Option Size :=
  if i64Max < (value : ℤ) then none else some ⟨(value : ℤ)⟩

/-- `SizeVisitor::visit_f64` (src/serde.rs): rejects the value when it is
infinite, greater than `i64::MAX as f64`, or less than `i64::MIN as f64`;
otherwise stores `value as i64`.  Note that `i64::MAX as f64` rounds up to
exactly `2^63`. -/
def visit_f64 (value : F64) : Option Size :=
  if isInfiniteF64 value
      ∨ ltF64 (intToF64 i64Max) value
      ∨ ltF64 value (intToF64 i64Min) then none
  else some ⟨f64ToI64 value⟩

/-- `Serialize for Size` (src/serde.rs): `serialize_i64(self.bytes)`. -/
def serializeSize (s : Size) : ℤ := s.bytes

/-! Helper lemmas about the classifier. -/

/-- The thresholds of a rule table. -/
def thresholds (rules : List FormatRule) : List ℕ :=
  rules.map FormatRule.less_than

/-- On a table with strictly increasing thresholds, the `Ok`/`Err` dispatch on
`binary_search_by_key` selects exactly the first rule whose exclusive upper
bound is strictly greater than the byte count (equality with a threshold
promoting to the next rule), as long as some rule is still above the count. -/
theorem classifyIdx_spec (rules : List FormatRule) (bytes : ℕ)
    (hchain : List.Chain' (· < ·) (thresholds rules))
    (habove : ∃ r ∈ rules, bytes < r.less_than) :
    classifyIdx rules bytes < rules.length ∧
    bytes < ((rules.getD (classifyIdx rules bytes) dummyRule).less_than) ∧
    ∀ j, j < classifyIdx rules bytes → (rules.getD j dummyRule).less_than ≤ bytes := by
  have hpair : List.Pairwise (fun a b : FormatRule => a.less_than < b.less_than) rules := by
    have := List.chain'_iff_pairwise.mp hchain
    simpa [thresholds, List.pairwise_map] using this
  have hmono : ∀ i j (hi : i < rules.length) (hj : j < rules.length), i < j →
      (rules.getD i dummyRule).less_than < (rules.getD j dummyRule).less_than := by
    intro i j hi hj hij
    rw [List.getD_eq_getElem _ _ hi, List.getD_eq_getElem _ _ hj]
    exact List.pairwise_iff_getElem.mp hpair i j hi hj hij
  rcases hfind : rules.findIdx? (fun r => r.less_than == bytes) with _ | i
  · -- no threshold equals `bytes` exactly: the insertion point is returned
    have hne : ∀ r ∈ rules, r.less_than ≠ bytes := by
      intro r hr
      have := List.findIdx?_eq_none_iff.mp hfind r hr
      simpa using this
    have hex : ∃ r ∈ rules, (decide (bytes < r.less_than)) = true := by
      rcases habove with ⟨r, hr, hlt⟩
      exact ⟨r, hr, by simpa using hlt⟩
    have hlen : rules.findIdx (fun r => decide (bytes < r.less_than)) < rules.length :=
      List.findIdx_lt_length_of_exists hex
    have hidx : classifyIdx rules bytes
        = rules.findIdx (fun r => decide (bytes < r.less_than)) := by
      simp [classifyIdx, hfind]
    refine ⟨by omega, ?_, ?_⟩
    · rw [hidx, List.getD_eq_getElem _ _ hlen]
      have := @List.findIdx_getElem _ (fun r => decide (bytes < r.less_than)) rules hlen
      simpa using this
    · intro j hj
      rw [hidx] at hj
      have hjlen : j < rules.length := lt_trans hj hlen
      rw [List.getD_eq_getElem _ _ hjlen]
      have := List.not_of_lt_findIdx hj
      simpa using this
  · -- a threshold equals `bytes` exactly: the next rule is selected
    obtain ⟨hi, hpi, _⟩ := List.findIdx?_eq_some_iff_getElem.mp hfind
    have heq : (rules.getD i dummyRule).less_than = bytes := by
      rw [List.getD_eq_getElem _ _ hi]
      simpa using hpi
    have hidx : classifyIdx rules bytes = i + 1 := by simp [classifyIdx, hfind]
    -- some rule is strictly above `bytes`; it must sit strictly after `i`
    rcases habove with ⟨r, hr, hrlt⟩
    obtain ⟨k, hrk⟩ := List.mem_iff_get.mp hr
    have hkval : (rules.getD (k : ℕ) dummyRule).less_than = r.less_than := by
      rw [List.getD_eq_getElem _ _ k.2, ← List.get_eq_getElem, hrk]
    have hik : i < (k : ℕ) := by
      by_contra hik
      push_neg at hik
      rcases Nat.eq_or_lt_of_le hik with h | h
      · rw [h] at hkval
        omega
      · have := hmono (k : ℕ) i k.2 hi h
        omega
    have hlen : i + 1 < rules.length := lt_of_le_of_lt hik k.2
    refine ⟨by omega, ?_, ?_⟩
    · rw [hidx]
      have := hmono i (i + 1) hi hlen (Nat.lt_succ_self i)
      omega
    · intro j hj
      rw [hidx] at hj
      rcases Nat.lt_or_ge j i with h | h
      · have := hmono j i (lt_trans hj hlen) hi h
        omega
      · have : j = i := by omega
        subst this
        omega

/-- Both tables have strictly increasing thresholds. -/
theorem thresholds_sorted (base : Base) :
    List.Chain' (· < ·) (thresholds (rulesOf base)) := by
  cases base <;>
    norm_num [thresholds, rulesOf, BASE2_RULES, BASE10_RULES, List.chain'_cons, KILOBYTE,
      MEGABYTE, GIGABYTE, TERABYTE, PETABYTE, EXABYTE, KIBIBYTE, MEBIBYTE, GIBIBYTE, TEBIBYTE,
      PEBIBYTE, EXBIBYTE, u64Max]

/-- The final sentinel rule of either table keeps every byte count below
`u64::MAX` inside the table. -/
theorem exists_rule_above (base : Base) (bytes : ℕ) (h : bytes < u64Max) :
    ∃ r ∈ rulesOf base, bytes < r.less_than := by
  cases base
  · exact ⟨⟨u64Max, EXBIBYTE, 0, false, .exbibyte⟩, by decide!, h⟩
  · exact ⟨⟨u64Max, EXABYTE, 0, false, .exabyte⟩, by decide!, h⟩

/-- For any byte count below `u64::MAX`, the selected index stays inside the
table. -/
theorem classifyIdx_lt_length (base : Base) (bytes : ℕ) (h : bytes < u64Max) :
    classifyIdx (rulesOf base) bytes < (rulesOf base).length :=
  (classifyIdx_spec (rulesOf base) bytes (thresholds_sorted base)
    (exists_rule_above base bytes h)).1

/-- The magnitude handed to classification never exceeds `i64::MAX` as a
natural number. -/
theorem magnitude_le_i64Max (x : ℤ) (hlo : i64Min ≤ x) (hhi : x ≤ i64Max) :
    magnitude x ≤ i64Max.toNat := by
  by_cases h0 : 0 ≤ x
  · simp only [magnitude, if_pos h0]
    exact Int.toNat_le_toNat hhi
  · simp only [magnitude, if_neg h0, checkedAbs]
    by_cases hmin : x = i64Min
    · simp [hmin]
    · simp only [if_neg hmin]
      have hle : -x ≤ i64Max := by
        simp only [i64Min] at hlo hmin
        simp only [i64Max]
        omega
      exact Int.toNat_le_toNat hle

/-- C1: for every byte count and base, the magnitude classifier selects the
smallest-threshold rule whose exclusive upper bound `less_than` is strictly
greater than the byte count (so a byte count exactly equal to a rule's
threshold selects the next rule in the table), and in particular formatting
1000 bytes in `Base10` with the `Default` style yields "1.00 KB" while 999
bytes yields "999 bytes". -/
theorem classifier_selects_least_upper_rule :
    (∀ (base : Base) (bytes : ℕ), bytes < u64Max →
      bytes < (classify (rulesOf base) bytes).less_than ∧
      ∀ j, j < classifyIdx (rulesOf base) bytes →
        ((rulesOf base).getD j dummyRule).less_than ≤ bytes) ∧
    formatBytes .base10 .default 1000 = "1.00 KB" ∧
    formatBytes .base10 .default 999 = "999 bytes" := by
  refine ⟨?_, by decide!, by decide!⟩
  intro base bytes h
  obtain ⟨_, h2, h3⟩ := classifyIdx_spec (rulesOf base) bytes (thresholds_sorted base)
    (exists_rule_above base bytes h)
  exact ⟨h2, h3⟩

/-- Witness for the classifier theorem at the concrete byte count 2500 in
base 10: the selected rule is the first one strictly above, and the rule
below its index has a threshold not exceeding the count. -/
theorem classifier_selects_least_upper_rule_witness :
    2500 < (classify (rulesOf Base.base10) 2500).less_than ∧
    ((rulesOf Base.base10).getD 0 dummyRule).less_than ≤ 2500 :=
  ⟨(classifier_selects_least_upper_rule.1 Base.base10 2500 (by decide!)).1,
   (classifier_selects_least_upper_rule.1 Base.base10 2500 (by decide!)).2 0 (by decide!)⟩

/-- C10: for every `i64` input, the magnitude handed to classification is at
most `i64::MAX` as `u64`, which is strictly below the sentinel threshold
`u64::MAX`, so the selected index (including the `+ 1` promotion on an exact
threshold hit) stays inside the 17-entry table and formatting never indexes
out of bounds. -/
theorem classification_never_out_of_bounds (x : ℤ)
    (hlo : i64Min ≤ x) (hhi : x ≤ i64Max) :
    magnitude x ≤ i64Max.toNat ∧
    i64Max.toNat < u64Max ∧
    ∀ base, (rulesOf base).length = 17 ∧ classifyIdx (rulesOf base) (magnitude x) < 17 := by
  have hmag : magnitude x ≤ i64Max.toNat := magnitude_le_i64Max x hlo hhi
  refine ⟨hmag, by decide!, ?_⟩
  intro base
  have hb : magnitude x < u64Max := lt_of_le_of_lt hmag (by decide!)
  have h1 := classifyIdx_lt_length base (magnitude x) hb
  have hlen : (rulesOf base).length = 17 := by cases base <;> rfl
  exact ⟨hlen, by omega⟩

/-- Witness for the bounds theorem at the concrete input -5 in base 2. -/
theorem classification_never_out_of_bounds_witness :
    magnitude (-5) ≤ i64Max.toNat ∧
    i64Max.toNat < u64Max ∧
    (rulesOf Base.base2).length = 17 ∧
    classifyIdx (rulesOf Base.base2) (magnitude (-5)) < 17 :=
  ⟨(classification_never_out_of_bounds (-5) (by decide!) (by decide!)).1,
   (classification_never_out_of_bounds (-5) (by decide!) (by decide!)).2.1,
   (classification_never_out_of_bounds (-5) (by decide!) (by decide!)).2.2 Base.base2⟩

/-- C3: for every representable positive `i64` value, formatting its negation
produces exactly "-" followed by the formatting of the value itself (any base
and style), and for `i64::MIN` — whose absolute value is not representable —
the formatter emits "-" followed by the formatting of the magnitude of
`i64::MAX` instead of failing. -/
theorem format_sign_symmetry (x : ℤ) (hpos : 0 < x) (hhi : x ≤ i64Max)
    (base : Base) (style : Style) :
    formatBytes base style (-x) = "-" ++ formatBytes base style x ∧
    formatBytes base style i64Min = "-" ++ formatBytes base style i64Max := by
  constructor
  · have hneg : ¬ 0 ≤ -x := by omega
    have hne : -x ≠ i64Min := by
      simp only [i64Min, i64Max] at hhi ⊢
      omega
    simp only [formatBytes, inner_fmt, if_neg hneg, if_pos hpos.le]
    simp only [magnitude, if_neg hneg, checkedAbs, if_neg hne, neg_neg]
  · have hneg : ¬ (0 : ℤ) ≤ i64Min := by decide!
    have hnn : (0 : ℤ) ≤ i64Max := by decide!
    simp only [formatBytes, inner_fmt, if_neg hneg, if_pos hnn]
    simp [magnitude, if_neg hneg, checkedAbs]

/-- Witness for the sign-symmetry theorem at 7 with base 2, default style. -/
theorem format_sign_symmetry_witness :
    formatBytes Base.base2 Style.default (-7)
        = "-" ++ formatBytes Base.base2 Style.default 7 ∧
    formatBytes Base.base2 Style.default i64Min
        = "-" ++ formatBytes Base.base2 Style.default i64Max :=
  format_sign_symmetry 7 (by decide!) (by decide!) Base.base2 Style.default

/-- C7: rendering the unit suffix uses the non-pluralized spelling exactly at
count 1 for every concrete style; any other count appends "s" for the `Full`
and `FullLowercase` styles; the abbreviated styles never pluralize; and the
`Default` style resolves to `FullLowercase` for the byte unit and to
`Abbreviated` otherwise. -/
theorem unit_format_pluralization (u : Unit) (n : ℕ) :
    u.format n .full = " " ++ u.text.2.1 ++ (if n = 1 then "" else "s") ∧
    u.format n .fullLowercase = " " ++ u.text.1 ++ (if n = 1 then "" else "s") ∧
    u.format n .abbreviated = " " ++ u.text.2.2.2 ∧
    u.format n .abbreviatedLowercase = " " ++ u.text.2.2.1 ∧
    u.format n .default
      = (if u = .byte then u.format n .fullLowercase else u.format n .abbreviated) := by
  rcases n with _ | _ | n <;> cases u <;>
    simp [Unit.format, Unit.formatConcrete, Unit.text]

/-! Helper lemmas about the numeric/unit split. -/

/-- The two halves of the split always reassemble the input. -/
theorem splitNumUnit_join (s : List Char) :
    (splitNumUnit s).1 ++ (splitNumUnit s).2 = s := by
  rcases h : s.reverse.findIdx? (fun c => !c.isAlpha) with _ | j <;>
    simp [splitNumUnit, h]

/-- A string of alphabetic characters only is taken entirely as the numeric
part, with an empty unit. -/
theorem splitNumUnit_all_alpha (s : List Char) (h : ∀ c ∈ s, c.isAlpha = true) :
    splitNumUnit s = (s, []) := by
  have hnone : s.reverse.findIdx? (fun c => !c.isAlpha) = none := by
    rw [List.findIdx?_eq_none_iff]
    intro x hx
    simp [h x (List.mem_reverse.mp hx)]
  simp [splitNumUnit, hnone]

/-- Appending a non-alphabetic character forces the whole string into the
numeric part. -/
theorem splitNumUnit_append_nonalpha (s : List Char) (c : Char) (hc : c.isAlpha = false) :
    splitNumUnit (s ++ [c]) = (s ++ [c], []) := by
  unfold splitNumUnit
  simp [List.reverse_append, hc]

/-- Appending an alphabetic character to a string that contains a
non-alphabetic character extends the unit suffix. -/
theorem splitNumUnit_append_alpha (s : List Char) (c : Char) (hc : c.isAlpha = true)
    (j : ℕ) (h : s.reverse.findIdx? (fun c => !c.isAlpha) = some j) :
    splitNumUnit (s ++ [c]) = ((splitNumUnit s).1, (splitNumUnit s).2 ++ [c]) := by
  have hj : j < s.length := by
    have := List.findIdx?_eq_some_iff_getElem.mp h
    simpa using this.1
  unfold splitNumUnit
  rw [List.reverse_append]
  simp only [List.reverse_singleton, List.singleton_append, List.findIdx?_cons, hc,
    Bool.not_true, Bool.false_eq_true, if_false, List.findIdx?_succ, h, Option.map,
    List.length_append, List.length_singleton]
  have hlen : s.length + 1 - (j + 1) = s.length - j := by omega
  rw [hlen, List.take_append_of_le_length (by omega), List.drop_append_of_le_length (by omega)]

/-- The unit suffix produced by the split consists of alphabetic characters
only. -/
theorem splitNumUnit_unit_alpha (s : List Char) :
    ∀ c ∈ (splitNumUnit s).2, c.isAlpha = true := by
  induction s using List.reverseRecOn with
  | nil => simp [splitNumUnit]
  | append_singleton s c ih =>
    by_cases hc : c.isAlpha
    · rcases h : s.reverse.findIdx? (fun c => !c.isAlpha) with _ | j
      · have hall : ∀ d ∈ s ++ [c], d.isAlpha = true := by
          intro d hd
          rcases List.mem_append.mp hd with h' | h'
          · have := List.findIdx?_eq_none_iff.mp h d (List.mem_reverse.mpr h')
            simpa using this
          · simp at h'
            subst h'
            exact hc
        rw [splitNumUnit_all_alpha _ hall]
        simp
      · rw [splitNumUnit_append_alpha s c hc j h]
        intro d hd
        rcases List.mem_append.mp hd with h' | h'
        · exact ih d h'
        · simp at h'
          subst h'
          exact hc
    · rw [splitNumUnit_append_nonalpha s c (by simpa using hc)]
      simp

/-- When the input contains a non-alphabetic character, the numeric part is
nonempty and ends with a non-alphabetic character (i.e. the split point sits
immediately after the rightmost non-alphabetic character). -/
theorem splitNumUnit_num_last (s : List Char) (hex : ∃ c ∈ s, c.isAlpha = false) :
    ∃ c, (splitNumUnit s).1.getLast? = some c ∧ c.isAlpha = false := by
  have hsome : (s.reverse.findIdx? (fun c => !c.isAlpha)).isSome := by
    rw [List.findIdx?_isSome]
    rcases hex with ⟨c, hc, hcf⟩
    exact List.any_eq_true.mpr ⟨c, List.mem_reverse.mpr hc, by simp [hcf]⟩
  obtain ⟨j, hj⟩ := Option.isSome_iff_exists.mp hsome
  obtain ⟨hjlen, hpj, _⟩ := List.findIdx?_eq_some_iff_getElem.mp hj
  have hjlen' : j < s.length := by simpa using hjlen
  have hnum : (splitNumUnit s).1 = s.take (s.length - j) := by
    simp [splitNumUnit, hj]
  refine ⟨s.reverse[j], ?_, by simpa using hpj⟩
  rw [hnum]
  have hlen : (s.take (s.length - j)).length = s.length - j := by
    simp
  rw [List.getLast?_eq_getElem?, hlen]
  have hidx : s.length - j - 1 < s.length - j := by omega
  have hip : s.length - j - 1 = s.length - 1 - j := by omega
  rw [List.getElem?_take, if_pos hidx, List.getElem_reverse,
    List.getElem?_eq_getElem (show s.length - j - 1 < s.length by omega)]
  simp [hip]

/-- A single-byte (ASCII) character occupies one byte in UTF-8. -/
theorem utf8Size_of_ascii (c : Char) (h : c.toNat < 128) : c.utf8Size = 1 := by
  unfold Char.utf8Size
  rw [if_pos]
  rw [UInt32.le_def, BitVec.le_def]
  exact Nat.le_of_lt_succ h

/-- `str::split_at` at a character boundary (the byte length of a character
prefix) splits into exactly that prefix and the rest. -/
theorem splitAtByte_boundary (s : List Char) (n : ℕ) (hn : n ≤ s.length) :
    splitAtByte s (utf8Length (s.take n)) = some (s.take n, s.drop n) := by
  induction s generalizing n with
  | nil =>
    have : n = 0 := by simpa using hn
    subst this
    rfl
  | cons c rest ih =>
    rcases n with _ | m
    · rfl
    · have hsz := Char.utf8Size_pos c
      have hlen : utf8Length ((c :: rest).take (m + 1))
          = c.utf8Size + utf8Length (rest.take m) := by
        simp [utf8Length, List.take_cons]
      obtain ⟨k, hk⟩ : ∃ k, utf8Length ((c :: rest).take (m + 1)) = k + 1 :=
        ⟨utf8Length ((c :: rest).take (m + 1)) - 1, by omega⟩
      rw [hk]
      simp only [splitAtByte]
      rw [if_neg (by omega)]
      have hrec : k + 1 - c.utf8Size = utf8Length (rest.take m) := by omega
      rw [hrec, ih m (by simpa using hn)]
      simp

/-- `str::split_at` strictly inside a character (byte offsets between its
start and its end) panics. -/
theorem splitAtByte_inside (s : List Char) (n d : ℕ) (hn : n < s.length)
    (hd1 : 1 ≤ d) (hd2 : d < (s.getD n 'A').utf8Size) :
    splitAtByte s (utf8Length (s.take n) + d) = none := by
  induction s generalizing n with
  | nil => simp at hn
  | cons c rest ih =>
    rcases n with _ | m
    · have hd2' : d < c.utf8Size := by simpa using hd2
      have h0 : utf8Length ((c :: rest).take 0) = 0 := by simp [utf8Length]
      obtain ⟨k, hk⟩ : ∃ k, utf8Length ((c :: rest).take 0) + d = k + 1 :=
        ⟨utf8Length ((c :: rest).take 0) + d - 1, by omega⟩
      rw [hk]
      simp only [splitAtByte]
      rw [if_pos (by omega)]
    · have hlen : utf8Length ((c :: rest).take (m + 1))
          = c.utf8Size + utf8Length (rest.take m) := by
        simp [utf8Length, List.take_cons]
      have hsz := Char.utf8Size_pos c
      obtain ⟨k, hk⟩ : ∃ k, utf8Length ((c :: rest).take (m + 1)) + d = k + 1 :=
        ⟨utf8Length ((c :: rest).take (m + 1)) + d - 1, by omega⟩
      rw [hk]
      simp only [splitAtByte]
      rw [if_neg (by omega)]
      have hrec : k + 1 - c.utf8Size = utf8Length (rest.take m) + d := by omega
      rw [hrec, ih m (by simpa using hn) (by simpa using hd2)]

/-- When the input contains a non-alphabetic character, the character-level
numeric part ends with a non-alphabetic character `c`, and the source's
byte-level split agrees with the character-level split exactly when `c` is
single-byte — and panics when `c` is multi-byte, since the byte index one
past `c`'s start then falls strictly inside `c`. -/
theorem splitNumUnit?_of_found (s : List Char) (hex : ∃ c ∈ s, c.isAlpha = false) :
    ∃ c, (splitNumUnit s).1.getLast? = some c ∧ c.isAlpha = false ∧
      (c.utf8Size = 1 → splitNumUnit? s = some (splitNumUnit s)) ∧
      (2 ≤ c.utf8Size → splitNumUnit? s = none) := by
  have hsome : (s.reverse.findIdx? (fun c => !c.isAlpha)).isSome := by
    rw [List.findIdx?_isSome]
    rcases hex with ⟨c, hc, hcf⟩
    exact List.any_eq_true.mpr ⟨c, List.mem_reverse.mpr hc, by simp [hcf]⟩
  obtain ⟨j, hj⟩ := Option.isSome_iff_exists.mp hsome
  obtain ⟨hjlen, hpj, _⟩ := List.findIdx?_eq_some_iff_getElem.mp hj
  have hjlen' : j < s.length := by simpa using hjlen
  have hnum : (splitNumUnit s).1 = s.take (s.length - j) := by
    simp [splitNumUnit, hj]
  have hsplit : splitNumUnit s = (s.take (s.length - j), s.drop (s.length - j)) := by
    simp [splitNumUnit, hj]
  -- the rightmost non-alphabetic character and its character index
  have hkd : s.getD (s.length - 1 - j) 'A' = s.reverse[j] := by
    rw [List.getD_eq_getElem _ _ (by omega), List.getElem_reverse]
  have hlast : (splitNumUnit s).1.getLast? = some s.reverse[j] := by
    rw [hnum]
    have hlen : (s.take (s.length - j)).length = s.length - j := by simp
    rw [List.getLast?_eq_getElem?, hlen]
    have hidx : s.length - j - 1 < s.length - j := by omega
    have hip : s.length - j - 1 = s.length - 1 - j := by omega
    rw [List.getElem?_take, if_pos hidx, List.getElem_reverse,
      List.getElem?_eq_getElem (show s.length - j - 1 < s.length by omega)]
    simp [hip]
  have hbyte : splitNumUnit? s
      = splitAtByte s (utf8Length (s.take (s.length - 1 - j)) + 1) := by
    unfold splitNumUnit? rfindByteIdx
    rw [hj]
  refine ⟨s.reverse[j], hlast, by simpa using hpj, ?_, ?_⟩
  · intro h1
    rw [hbyte]
    have htake : utf8Length (s.take (s.length - 1 - j)) + 1
        = utf8Length (s.take (s.length - 1 - j + 1)) := by
      have hklen : s.length - 1 - j < s.length := by omega
      rw [List.take_succ, List.getElem?_eq_getElem hklen]
      have happ : utf8Length (s.take (s.length - 1 - j) ++ (some (s.get ⟨s.length - 1 - j, hklen⟩)).toList)
          = utf8Length (s.take (s.length - 1 - j)) + (s.get ⟨s.length - 1 - j, hklen⟩).utf8Size := by
        simp only [Option.toList_some, utf8Length, List.map_append, List.sum_append,
          List.map_cons, List.map_nil, List.sum_cons, List.sum_nil, add_zero]
      rw [List.get_eq_getElem] at happ
      rw [happ]
      have h1' := h1
      rw [List.getElem_reverse] at h1'
      rw [h1']
    rw [htake]
    have hone : s.length - 1 - j + 1 = s.length - j := by omega
    rw [hone, splitAtByte_boundary s _ (by omega), hsplit]
  · intro h2
    rw [hbyte]
    exact splitAtByte_inside s (s.length - 1 - j) 1 (by omega) le_rfl (by rw [hkd]; omega)

/-- On an input of alphabetic characters only there is no split point and the
parser takes the whole string as the number with an empty unit, without
touching `split_at`. -/
theorem splitNumUnit?_all_alpha (s : List Char) (h : ∀ c ∈ s, c.isAlpha = true) :
    splitNumUnit? s = some (s, []) := by
  have hnone : s.reverse.findIdx? (fun c => !c.isAlpha) = none := by
    rw [List.findIdx?_eq_none_iff]
    intro x hx
    simp [h x (List.mem_reverse.mp hx)]
  unfold splitNumUnit? rfindByteIdx
  rw [hnone]

/-- C4 (amended): the parser splits the trimmed input immediately after the
rightmost character that is not an ASCII alphabetic letter — the two halves
reassemble the string, the unit half is all alphabetic, the numeric half ends
with that non-alphabetic character, and an input with no such character is
entirely numeric with an empty unit — *provided* the split point is a
character boundary, i.e. that rightmost non-alphabetic character is
single-byte; when it is multi-byte the byte-index split panics instead.
"423E-3mb" splits into "423E-3" and "mb", and parsing "0.423e3kb" yields
423000 bytes. -/
theorem split_at_rightmost_nonalphabetic (s : List Char) :
    ((∀ c ∈ s, c.isAlpha = true) → splitNumUnit? s = some (s, [])) ∧
    ((∃ c ∈ s, c.isAlpha = false) →
      ∃ c, (splitNumUnit s).1.getLast? = some c ∧ c.isAlpha = false ∧
        (c.utf8Size = 1 → splitNumUnit? s = some (splitNumUnit s)) ∧
        (2 ≤ c.utf8Size → splitNumUnit? s = none)) ∧
    (splitNumUnit s).1 ++ (splitNumUnit s).2 = s ∧
    (∀ c ∈ (splitNumUnit s).2, c.isAlpha = true) ∧
    ((∀ c ∈ s, c.isAlpha = true) → splitNumUnit s = (s, [])) ∧
    splitNumUnit "423E-3mb".toList = ("423E-3".toList, "mb".toList) ∧
    splitNumUnit? "423E-3mb".toList = some ("423E-3".toList, "mb".toList) ∧
    sizeFromStr "0.423e3kb" = ParseOutcome.ok 423000 := by
  exact ⟨splitNumUnit?_all_alpha s, splitNumUnit?_of_found s, splitNumUnit_join s,
    splitNumUnit_unit_alpha s, splitNumUnit_all_alpha s, by decide!, by decide!, by decide!⟩

/-- The original universal split claim fails on the program: "1ékb" is its
own trim, its rightmost non-ASCII-alphabetic character is the two-byte 'é',
and the byte index one past its start is not a character boundary, so the
parser panics in `str::split_at` instead of splitting. -/
theorem split_panics_on_multibyte_char :
    trimChars "1ékb".toList = "1ékb".toList ∧
    splitNumUnit? "1ékb".toList = none ∧
    sizeFromStr "1ékb" = ParseOutcome.panic :=
  ⟨by decide!, by decide!, by decide!⟩

/-- Witness for the split theorem: the all-alphabetic case at "abcd" and the
single-byte boundary case at "12 kb". -/
theorem split_at_rightmost_nonalphabetic_witness :
    splitNumUnit? "abcd".toList = some ("abcd".toList, []) ∧
    splitNumUnit? "12 kb".toList = some (splitNumUnit "12 kb".toList) := by
  constructor
  · exact (split_at_rightmost_nonalphabetic "abcd".toList).1 (by decide!)
  · obtain ⟨c, hc1, hc2, hc3, hc4⟩ :=
      (split_at_rightmost_nonalphabetic "12 kb".toList).2.1 (by decide!)
    have h5 : (splitNumUnit "12 kb".toList).1.getLast? = some ' ' := by decide!
    have hc : c = ' ' := Option.some.inj (hc1.symm.trans h5)
    subst hc
    exact hc3 (by decide!)

/-! Helper lemmas about unit-suffix normalization. -/

/-- Removal of a single trailing `s`, the normalization described by the
specification ("strip a single trailing s"). -/
def stripOneS (u : List Char) : List Char :=
  match u.reverse with
  | c :: rest => if c = 's' then rest.reverse else u
  | [] => u

set_option maxHeartbeats 2000000 in
/-- No recognized unit name ends in `s`, so the unit lookup rejects any
suffix whose last character is `s`. -/
theorem unitMultiplier?_ends_s (cs : List Char) (h : cs.getLast? = some 's') :
    unitMultiplier? cs = none := by
  unfold unitMultiplier?
  by_cases h1 : cs = [] ∨ cs = "b".toList ∨ cs = "byte".toList
  · rcases h1 with h' | h' | h' <;> subst h' <;> exact absurd h (by decide!)
  rw [if_neg h1]
  by_cases h2 : cs = "kb".toList ∨ cs = "kilobyte".toList
  · rcases h2 with h' | h' <;> subst h' <;> exact absurd h (by decide!)
  rw [if_neg h2]
  by_cases h3 : cs = "mb".toList ∨ cs = "megabyte".toList
  · rcases h3 with h' | h' <;> subst h' <;> exact absurd h (by decide!)
  rw [if_neg h3]
  by_cases h4 : cs = "gb".toList ∨ cs = "gigabyte".toList
  · rcases h4 with h' | h' <;> subst h' <;> exact absurd h (by decide!)
  rw [if_neg h4]
  by_cases h5 : cs = "tb".toList ∨ cs = "terabyte".toList
  · rcases h5 with h' | h' <;> subst h' <;> exact absurd h (by decide!)
  rw [if_neg h5]
  by_cases h6 : cs = "pb".toList ∨ cs = "petabyte".toList
  · rcases h6 with h' | h' <;> subst h' <;> exact absurd h (by decide!)
  rw [if_neg h6]
  by_cases h7 : cs = "eb".toList ∨ cs = "exabyte".toList
  · rcases h7 with h' | h' <;> subst h' <;> exact absurd h (by decide!)
  rw [if_neg h7]
  by_cases h8 : cs = "kib".toList ∨ cs = "kibibyte".toList
  · rcases h8 with h' | h' <;> subst h' <;> exact absurd h (by decide!)
  rw [if_neg h8]
  by_cases h9 : cs = "mib".toList ∨ cs = "mebibyte".toList
  · rcases h9 with h' | h' <;> subst h' <;> exact absurd h (by decide!)
  rw [if_neg h9]
  by_cases h10 : cs = "gib".toList ∨ cs = "gibibyte".toList
  · rcases h10 with h' | h' <;> subst h' <;> exact absurd h (by decide!)
  rw [if_neg h10]
  by_cases h11 : cs = "tib".toList ∨ cs = "tebibyte".toList
  · rcases h11 with h' | h' <;> subst h' <;> exact absurd h (by decide!)
  rw [if_neg h11]
  by_cases h12 : cs = "pib".toList ∨ cs = "pebibyte".toList
  · rcases h12 with h' | h' <;> subst h' <;> exact absurd h (by decide!)
  rw [if_neg h12]
  by_cases h13 : cs = "eib".toList ∨ cs = "exbibyte".toList
  · rcases h13 with h' | h' <;> subst h' <;> exact absurd h (by decide!)
  rw [if_neg h13]

/-- When the single-strip result does not itself end in `s` (that is, the
suffix carried at most one trailing `s`), the code's strip-all-trailing-`s`
normalization agrees with the specification's strip-one. -/
theorem trimEndMatchesS_eq_stripOneS (u : List Char)
    (h : ∀ c, (stripOneS u).getLast? = some c → c ≠ 's') :
    trimEndMatchesS u = stripOneS u := by
  rcases hv : u.reverse with _ | ⟨c, r⟩
  · have hu : u = [] := by simpa using congrArg List.reverse hv
    subst hu
    rfl
  · have hu : u = (c :: r).reverse := by
      have := congrArg List.reverse hv
      simpa using this
    by_cases hc : c = 's'
    · subst hc
      rcases hr : r with _ | ⟨c2, r2⟩
      · subst hr
        simp [trimEndMatchesS, stripOneS, hv]
      · by_cases hc2 : c2 = 's'
        · -- two trailing `s`: the single-strip result still ends in `s`
          exfalso
          subst hc2
          subst hr
          have hstrip : stripOneS u = ('s' :: r2).reverse := by
            simp [stripOneS, hv]
          have hlast : (stripOneS u).getLast? = some 's' := by
            rw [hstrip]
            simp [List.getLast?_reverse]
          exact h 's' hlast rfl
        · subst hr
          have hone : stripOneS u = (c2 :: r2).reverse := by
            simp [stripOneS, hv]
          have hall : trimEndMatchesS u = (c2 :: r2).reverse := by
            simp only [trimEndMatchesS, hv, List.dropWhile_cons]
            simp [hc2]
          rw [hone, hall]
    · have hone : stripOneS u = u := by
        simp [stripOneS, hv, hc]
      have hall : trimEndMatchesS u = u := by
        simp only [trimEndMatchesS, hv, List.dropWhile_cons]
        simp [hc, ← hv]
      rw [hone, hall]

/-! ASCII facts showing that the hypotheses of the recognized-unit claim
exclude the `split_at` panic path: an accepted float literal consists of
ASCII characters only, so under those hypotheses the rightmost
non-alphabetic character of the trimmed input is single-byte and the
byte-level split lands on a character boundary. -/

/-- A character whose lowercase form is ASCII is ASCII. -/
theorem ascii_of_toLower_ascii (d : Char) (h : d.toLower.toNat < 128) :
    d.toNat < 128 := by
  by_cases hc : d.toNat ≥ 65 ∧ d.toNat ≤ 90
  · omega
  · unfold Char.toLower at h
    rw [if_neg hc] at h
    exact h

/-- Decimal digits are ASCII. -/
theorem isDigitChar_ascii (d : Char) (h : isDigitChar d = true) :
    d.toNat < 128 := by
  simp only [isDigitChar, Bool.decide_and, Bool.and_eq_true, decide_eq_true_eq] at h
  have h3 := Char.le_def.mp h.2
  rw [UInt32.le_def, BitVec.le_def] at h3
  have h4 : d.toNat ≤ 57 := h3
  omega

/-- The ASCII whitespace characters recognized by the trim model are ASCII. -/
theorem isWsChar_ascii (d : Char) (h : isWsChar d = true) : d.toNat < 128 := by
  simp only [isWsChar, decide_eq_true_eq] at h
  rcases h with h | h | h | h | h | h <;> subst h <;> decide

/-- The optional-sign prefix either consumes nothing or one `+`/`-`. -/
theorem parseSign_eq (l : List Char) :
    (parseSign l).2 = l ∨
    ∃ c, (c = '+' ∨ c = '-') ∧ l = c :: (parseSign l).2 := by
  cases l with
  | nil => left; rfl
  | cons c rest =>
    by_cases h1 : c = '+'
    · right
      refine ⟨c, Or.inl h1, ?_⟩
      subst h1
      rfl
    · by_cases h2 : c = '-'
      · right
        refine ⟨c, Or.inr h2, ?_⟩
        subst h2
        rfl
      · left
        simp only [parseSign, if_neg h1, if_neg h2]

/-- Every character of a signed string is the sign or part of the rest. -/
theorem parseSign_mem (l : List Char) (d : Char) (hd : d ∈ l) :
    d = '+' ∨ d = '-' ∨ d ∈ (parseSign l).2 := by
  rcases parseSign_eq l with h | ⟨c, hc, h⟩
  · exact Or.inr (Or.inr (by rw [h]; exact hd))
  · rw [h] at hd
    rcases List.mem_cons.mp hd with h' | h'
    · subst h'
      rcases hc with hc | hc
      · exact Or.inl hc
      · exact Or.inr (Or.inl hc)
    · exact Or.inr (Or.inr h')

/-- A list whose `dropWhile` is empty is its own `takeWhile`. -/
theorem eq_takeWhile_of_dropWhile_nil (p : Char → Bool) (l : List Char)
    (h : l.dropWhile p = []) : l = l.takeWhile p := by
  conv_lhs => rw [← List.takeWhile_append_dropWhile p l]
  rw [h, List.append_nil]

/-- An accepted exponent suffix consists of ASCII characters only. -/
theorem parseExponent_ascii (r : List Char) (ex : ℤ)
    (h : parseExponent r = some ex) : ∀ d ∈ r, d.toNat < 128 := by
  intro d hd
  cases r with
  | nil => simp at hd
  | cons e rest =>
    simp only [parseExponent] at h
    by_cases he : e = 'e' ∨ e = 'E'
    · rw [if_pos he] at h
      rcases hps : parseSign rest with ⟨eneg, r1⟩
      rw [hps] at h
      simp only at h
      by_cases hfail : r1.takeWhile isDigitChar = [] ∨ r1.dropWhile isDigitChar ≠ []
      · rw [if_pos hfail] at h
        exact absurd h (by simp)
      · push_neg at hfail
        have hr1 : r1 = r1.takeWhile isDigitChar :=
          eq_takeWhile_of_dropWhile_nil isDigitChar r1 hfail.2
        rcases List.mem_cons.mp hd with h' | h'
        · subst h'
          rcases he with he | he <;> subst he <;> decide
        · rcases parseSign_mem rest d h' with h'' | h'' | h''
          · subst h''; decide
          · subst h''; decide
          · rw [hps] at h''
            simp only at h''
            rw [hr1] at h''
            exact isDigitChar_ascii d (List.mem_takeWhile_imp h'')
    · rw [if_neg he] at h
      exact absurd h (by simp)

/-- An accepted float literal consists of ASCII characters only. -/
theorem parseF64_ascii (l : List Char) (v : F64) (h : parseF64 l = some v) :
    ∀ d ∈ l, d.toNat < 128 := by
  intro d hd
  simp only [parseF64] at h
  rcases hps : parseSign l with ⟨neg, s⟩
  rw [hps] at h
  simp only at h
  rcases parseSign_mem l d hd with hsgn | hsgn | hsgn
  · subst hsgn; decide
  · subst hsgn; decide
  rw [hps] at hsgn
  simp only at hsgn
  have hdl : d.toLower ∈ s.map Char.toLower := List.mem_map_of_mem Char.toLower hsgn
  by_cases hinf : s.map Char.toLower = "inf".toList ∨ s.map Char.toLower = "infinity".toList
  · have hall : ∀ x ∈ "infinity".toList, x.toNat < 128 := by decide
    have hall' : ∀ x ∈ "inf".toList, x.toNat < 128 := by decide
    rcases hinf with hinf | hinf <;> rw [hinf] at hdl
    · exact ascii_of_toLower_ascii d (hall' _ hdl)
    · exact ascii_of_toLower_ascii d (hall _ hdl)
  rw [if_neg hinf] at h
  by_cases hnan : s.map Char.toLower = "nan".toList
  · have hall : ∀ x ∈ "nan".toList, x.toNat < 128 := by decide
    rw [hnan] at hdl
    exact ascii_of_toLower_ascii d (hall _ hdl)
  rw [if_neg hnan] at h
  have hsplit : d ∈ s.takeWhile isDigitChar ++ s.dropWhile isDigitChar := by
    rw [List.takeWhile_append_dropWhile]
    exact hsgn
  rcases List.mem_append.mp hsplit with hmem | hmem
  · exact isDigitChar_ascii d (List.mem_takeWhile_imp hmem)
  rcases hr1 : s.dropWhile isDigitChar with _ | ⟨c, r2⟩
  · rw [hr1] at hmem
    simp at hmem
  rw [hr1] at hmem h
  simp only at h
  by_cases hdot : c = '.'
  · subst hdot
    rw [if_pos rfl] at h
    by_cases hboth : s.takeWhile isDigitChar = [] ∧ r2.takeWhile isDigitChar = []
    · rw [if_pos hboth] at h
      exact absurd h (by simp)
    · rw [if_neg hboth] at h
      simp only at h
      rcases hpe : parseExponent (r2.dropWhile isDigitChar) with _ | ex
      · rw [hpe] at h
        exact absurd h (by simp)
      · rcases List.mem_cons.mp hmem with h' | h'
        · subst h'; decide
        · have h'' : d ∈ r2.takeWhile isDigitChar ++ r2.dropWhile isDigitChar := by
            rw [List.takeWhile_append_dropWhile]
            exact h'
          rcases List.mem_append.mp h'' with hm | hm
          · exact isDigitChar_ascii d (List.mem_takeWhile_imp hm)
          · exact parseExponent_ascii _ ex hpe d hm
  · rw [if_neg hdot] at h
    by_cases hds1 : s.takeWhile isDigitChar = []
    · rw [if_pos hds1] at h
      exact absurd h (by simp)
    · rw [if_neg hds1] at h
      simp only at h
      rcases hpe : parseExponent (c :: r2) with _ | ex
      · rw [hpe] at h
        exact absurd h (by simp)
      · exact parseExponent_ascii _ ex hpe d hmem

/-- `trim_end` leaves a string whose last character is not whitespace
unchanged. -/
theorem trimEndChars_eq_of_last_not_ws (l : List Char) (c : Char)
    (hl : l.getLast? = some c) (hw : isWsChar c = false) :
    trimEndChars l = l := by
  have hrev : l.reverse.head? = some c := by
    rw [List.head?_reverse]
    exact hl
  rcases hr : l.reverse with _ | ⟨c', rest⟩
  · rw [hr] at hrev
    simp at hrev
  · rw [hr] at hrev
    simp only [List.head?_cons, Option.some.injEq] at hrev
    subst hrev
    unfold trimEndChars
    rw [hr, List.dropWhile_cons_of_neg (by simp [hw]), ← hr, List.reverse_reverse]

/-- C5: whenever the unit suffix, lowercased and with a single trailing `s`
stripped, is a recognized unit name with multiplier `m`, parsing returns the
numeric literal (as a 64-bit float) multiplied by `m` and truncated toward
zero into the signed byte count (in particular the hypotheses exclude the
`split_at` panic: the accepted literal is pure ASCII, so the split point is a
character boundary); "12.34 KB" and "12.34 kIloByte" both parse to 12340
bytes, and the catalog maps "" to 1, "kb" to 1000 and "eib" to 1024^6. -/
theorem parse_recognized_unit (s : String) (m : ℕ) (v : F64)
    (hu : unitMultiplier?
      (stripOneS (((splitNumUnit (trimChars s.toList)).2).map Char.toLower)) = some m)
    (hn : parseF64 (trimEndChars (splitNumUnit (trimChars s.toList)).1) = some v) :
    sizeFromStr s = ParseOutcome.ok (f64ToI64 (mulF64 v (intToF64 (m : ℤ)))) ∧
    sizeFromStr "12.34 KB" = ParseOutcome.ok 12340 ∧
    sizeFromStr "12.34 kIloByte" = ParseOutcome.ok 12340 ∧
    unitMultiplier? [] = some 1 ∧
    unitMultiplier? "kb".toList = some 1000 ∧
    unitMultiplier? "eib".toList = some (1024 ^ 6) := by
  refine ⟨?_, by decide!, by decide!, by decide!, by decide!, by decide!⟩
  have hne : ∀ c,
      (stripOneS (((splitNumUnit (trimChars s.toList)).2).map Char.toLower)).getLast? = some c →
      c ≠ 's' := by
    intro c hc hcs
    subst hcs
    rw [unitMultiplier?_ends_s _ hc] at hu
    exact Option.noConfusion hu
  have hall : unitMultiplier?
      (trimEndMatchesS (((splitNumUnit (trimChars s.toList)).2).map Char.toLower)) = some m := by
    rw [trimEndMatchesS_eq_stripOneS _ hne]
    exact hu
  have hbridge : splitNumUnit? (trimChars s.toList)
      = some (splitNumUnit (trimChars s.toList)) := by
    by_cases hex : ∃ c ∈ trimChars s.toList, c.isAlpha = false
    · obtain ⟨c, hc1, hc2, hc3, hc4⟩ := splitNumUnit?_of_found _ hex
      apply hc3
      apply utf8Size_of_ascii
      by_cases hwc : isWsChar c = true
      · exact isWsChar_ascii c hwc
      · have hteq : trimEndChars (splitNumUnit (trimChars s.toList)).1
            = (splitNumUnit (trimChars s.toList)).1 :=
          trimEndChars_eq_of_last_not_ws _ c hc1 (by simpa using hwc)
        rw [hteq] at hn
        exact parseF64_ascii _ v hn c (List.mem_of_mem_getLast? hc1)
    · push_neg at hex
      have halpha : ∀ c ∈ trimChars s.toList, c.isAlpha = true := by
        intro c hc
        have := hex c hc
        simpa using this
      rw [splitNumUnit?_all_alpha _ halpha, splitNumUnit_all_alpha _ halpha]
  rcases hsp : splitNumUnit (trimChars s.toList) with ⟨numStr, unitStr⟩
  rw [hsp] at hn hall hbridge
  simp only at hn hall
  simp only [sizeFromStr]
  rw [hbridge]
  simp [hn, hall]

/-- Witness for the recognized-unit theorem at "12.34 KB": the numeric
literal rounds to the binary64 value nearest 12.34, the unit multiplier is
1000, and the parse result is their product truncated toward zero. -/
theorem parse_recognized_unit_witness :
    sizeFromStr "12.34 KB"
      = ParseOutcome.ok (f64ToI64 (mulF64 (roundF64 (1234 / 100)) (intToF64 (1000 : ℤ)))) :=
  (parse_recognized_unit "12.34 KB" 1000 (roundF64 (1234 / 100))
    (by decide!) (by decide!)).1

/-- C6: the claim that parsing failures always surface as the single opaque
error value and never as a panic is contradicted by the code: `from_str`
panics inside `str::split_at` whenever the rightmost non-ASCII-alphabetic
character of the trimmed input is multi-byte, as for "12.34 µB" (the
two-byte 'µ' is that character) and for the bare "µ"; the claim's own
example inputs do fail with the ordinary error value. -/
theorem parse_panic_contradicts_error_contract :
    sizeFromStr "12.34 µB" = ParseOutcome.panic ∧
    sizeFromStr "µ" = ParseOutcome.panic ∧
    sizeFromStr "Not a number" = ParseOutcome.err ∧
    sizeFromStr "1234 XB" = ParseOutcome.err ∧
    sizeFromStr "12..34 MB" = ParseOutcome.err :=
  ⟨by decide!, by decide!, by decide!, by decide!, by decide!⟩

/-- C8: each per-unit constructor multiplies its argument by that unit's
catalog multiplier (64-bit float arithmetic) and rounds the product toward
zero into the byte store; `from_bytes` stores every `i64` exactly, with no
unit conversion; and `from_mebibytes 2 = from_kibibytes 2048` holds exactly. -/
theorem constructors_multiply_and_truncate :
    (∀ n : ℤ, (Size.from_bytes n).bytes = n) ∧
    (∀ (u : Unit) (v : F64), u ≠ .byte →
      (fromUnit u v).bytes = f64ToI64 (mulF64 v (intToF64 (u.multiplier : ℤ)))) ∧
    Size.from_mebibytes (intToF64 2) = Size.from_kibibytes (intToF64 2048) := by
  refine ⟨fun n => rfl, ?_, by decide!⟩
  intro u v hu
  cases u
  · exact absurd rfl hu
  all_goals rfl

/-- Witness for the constructor theorem: the kilobyte constructor at 3. -/
theorem constructors_multiply_and_truncate_witness :
    (fromUnit Unit.kilobyte (intToF64 3)).bytes
      = f64ToI64 (mulF64 (intToF64 3) (intToF64 ((Unit.kilobyte).multiplier : ℤ))) :=
  constructors_multiply_and_truncate.2.1 Unit.kilobyte (intToF64 3) (by decide!)

/-- The float `2^63` lies strictly outside the representable `i64` range, yet
the deserializer accepts it rather than rejecting it with a range error: the
comparison bound `i64::MAX as f64` rounds up to exactly `2^63`, so the check
`value > i64::MAX as f64` passes and the saturating cast stores `i64::MAX`.
This refutes the claim that every float outside the representable signed
64-bit range is rejected. -/
theorem visit_f64_accepts_out_of_range :
    ((i64Max : ℚ) < (2 : ℚ) ^ 63) ∧
    visit_f64 (.finite ((2 : ℚ) ^ 63)) ≠ none ∧
    visit_f64 (.finite ((2 : ℚ) ^ 63)) = some ⟨i64Max⟩ :=
  ⟨by decide!, by decide!, by decide!⟩

/-- C9 (amended): a `Size` serializes to its plain signed 64-bit byte count;
a signed integer deserializes exactly; an unsigned integer strictly greater
than `i64::MAX` is rejected with a range error; a floating-point value is
rejected exactly when it is infinite, strictly greater than `2^63` (the value
of `i64::MAX as f64`, rounded up), or strictly less than `-(2^63)`; every
accepted float is truncated toward zero (saturating at the bounds) into the
byte store — in particular the float `2^63`, though outside the
representable range, is accepted and saturates to `i64::MAX`. -/
theorem serde_integer_roundtrip_and_range_checks :
    (∀ s : Size, serializeSize s = s.bytes) ∧
    (∀ v : ℤ, visit_i64 v = some ⟨v⟩) ∧
    (∀ v : ℕ, visit_u64 v = if i64Max < (v : ℤ) then none else some ⟨(v : ℤ)⟩) ∧
    (∀ v : F64, visit_f64 v = none ↔
      (isInfiniteF64 v = true ∨ ltF64 (.finite ((2 : ℚ) ^ 63)) v = true ∨
        ltF64 v (.finite (-((2 : ℚ) ^ 63))) = true)) ∧
    (∀ v : F64, visit_f64 v ≠ none → visit_f64 v = some ⟨f64ToI64 v⟩) ∧
    visit_f64 (.finite ((2 : ℚ) ^ 63)) = some ⟨i64Max⟩ := by
  have hmax : intToF64 i64Max = .finite ((2 : ℚ) ^ 63) := by decide!
  have hmin : intToF64 i64Min = .finite (-((2 : ℚ) ^ 63)) := by decide!
  refine ⟨fun s => rfl, fun v => rfl, fun v => rfl, ?_, ?_, by decide!⟩
  · intro v
    rw [visit_f64, hmax, hmin]
    by_cases h : isInfiniteF64 v = true ∨ ltF64 (.finite ((2 : ℚ) ^ 63)) v = true ∨
        ltF64 v (.finite (-((2 : ℚ) ^ 63))) = true
    · simp [h]
    · simp [h]
  · intro v h
    rw [visit_f64] at h ⊢
    rw [hmax, hmin] at h ⊢
    by_cases hc : isInfiniteF64 v = true ∨ ltF64 (.finite ((2 : ℚ) ^ 63)) v = true ∨
        ltF64 v (.finite (-((2 : ℚ) ^ 63))) = true
    · rw [if_pos hc] at h
      exact absurd rfl h
    · rw [if_neg hc]

/-- Witness for the serde theorem: the float 42 is accepted and truncated. -/
theorem serde_integer_roundtrip_witness :
    visit_f64 (.finite 42) = some ⟨f64ToI64 (.finite 42)⟩ :=
  serde_integer_roundtrip_and_range_checks.2.2.2.2.1 (.finite 42) (by decide!)

/-- The exact displayed value `bytes / divisor` of a rule lies in the
half-open interval `[lo, hi)`. -/
def displayedIn (r : FormatRule) (bytes lo hi : ℕ) : Prop :=
  (lo : ℚ) ≤ (bytes : ℚ) / (r.divisor : ℚ) ∧ (bytes : ℚ) / (r.divisor : ℚ) < (hi : ℚ)

instance (r : FormatRule) (bytes lo hi : ℕ) : Decidable (displayedIn r bytes lo hi) := by
  unfold displayedIn
  infer_instance

/-- The displayed-value interval condition is equivalent to integer bracket
bounds. -/
theorem displayedIn_iff (r : FormatRule) (bytes lo hi : ℕ) (hm : 0 < r.divisor) :
    displayedIn r bytes lo hi ↔ (lo * r.divisor ≤ bytes ∧ bytes < hi * r.divisor) := by
  have hq : (0 : ℚ) < (r.divisor : ℚ) := by exact_mod_cast hm
  unfold displayedIn
  rw [le_div_iff₀ hq, div_lt_iff₀ hq]
  constructor
  · rintro ⟨h1, h2⟩
    exact ⟨by exact_mod_cast h1, by exact_mod_cast h2⟩
  · rintro ⟨h1, h2⟩
    exact ⟨by exact_mod_cast h1, by exact_mod_cast h2⟩

/-- C2: the decimal precision is determined by the displayed value within the
selected unit — 2 digits on `[1, 10)`, 1 digit on `[10, 100)`, 0 digits on
`[100, 1000)` — with the byte-unit bracket (index 0) and the final overflow
bracket (index 16, threshold `u64::MAX`, largest unit) always using 0 digits,
and each per-base table having 17 entries with strictly increasing thresholds
spanning the full `u64` range. -/
theorem precision_matches_displayed_magnitude :
    (∀ base, (rulesOf base).length = 17 ∧
      List.Chain' (· < ·) (thresholds (rulesOf base)) ∧
      ((rulesOf base).getD 16 dummyRule).less_than = u64Max ∧
      ((rulesOf base).getD 0 dummyRule).scale = 0 ∧
      ((rulesOf base).getD 0 dummyRule).isByteRule = true ∧
      ((rulesOf base).getD 16 dummyRule).scale = 0) ∧
    (∀ (base : Base) (bytes : ℕ), bytes < u64Max →
      (classifyIdx (rulesOf base) bytes ≠ 0 → classifyIdx (rulesOf base) bytes ≠ 16 →
        (displayedIn (classify (rulesOf base) bytes) bytes 1 10 →
          (classify (rulesOf base) bytes).scale = 2) ∧
        (displayedIn (classify (rulesOf base) bytes) bytes 10 100 →
          (classify (rulesOf base) bytes).scale = 1) ∧
        (displayedIn (classify (rulesOf base) bytes) bytes 100 1000 →
          (classify (rulesOf base) bytes).scale = 0)) ∧
      (classifyIdx (rulesOf base) bytes = 0 → (classify (rulesOf base) bytes).scale = 0) ∧
      (classifyIdx (rulesOf base) bytes = 16 → (classify (rulesOf base) bytes).scale = 0)) := by
  constructor
  · intro base
    exact ⟨by cases base <;> rfl, thresholds_sorted base, by cases base <;> decide!,
      by cases base <;> decide!, by cases base <;> decide!, by cases base <;> decide!⟩
  · intro base bytes hb
    obtain ⟨hlen, hlt, hge⟩ := classifyIdx_spec (rulesOf base) bytes (thresholds_sorted base)
      (exists_rule_above base bytes hb)
    simp only [classify]
    refine ⟨fun h0 h16 => ?_, fun h0 => by rw [h0]; cases base <;> decide!,
      fun h16 => by rw [h16]; cases base <;> decide!⟩
    have h17 : classifyIdx (rulesOf base) bytes < 17 := by
      have hL : (rulesOf base).length = 17 := by cases base <;> rfl
      omega
    generalize hI : classifyIdx (rulesOf base) bytes = i at h0 h16 h17 hlt hge ⊢
    have h1le : 1 ≤ i := by omega
    have h15 : i ≤ 15 := by omega
    have hprev := hge (i - 1) (by omega)
    clear hge hI h17 h0 h16
    cases base
    all_goals simp only [rulesOf] at hlt hprev ⊢
    all_goals interval_cases i
    all_goals
      norm_num [BASE2_RULES, BASE10_RULES, List.getD_cons_zero, List.getD_cons_succ,
        KILOBYTE, MEGABYTE, GIGABYTE, TERABYTE, PETABYTE, EXABYTE,
        KIBIBYTE, MEBIBYTE, GIBIBYTE, TEBIBYTE, PEBIBYTE, EXBIBYTE] at hlt hprev ⊢
    all_goals repeat' constructor
    all_goals
      first
        | trivial
        | (intro hq
           rw [displayedIn_iff _ _ _ _ (by norm_num)] at hq
           dsimp only at hq
           omega)

/-- Witness for the precision theorem: 2 MiB displays in the mebibyte rule at
full 2-digit precision, and 999 bytes hits the byte rule at 0 digits. -/
theorem precision_matches_displayed_magnitude_witness :
    (classify (rulesOf Base.base2) 2097152).scale = 2 ∧
    (classify (rulesOf Base.base10) 999).scale = 0 :=
  ⟨((precision_matches_displayed_magnitude.2 Base.base2 2097152 (by decide!)).1
      (by decide!) (by decide!)).1 (by decide!),
   (precision_matches_displayed_magnitude.2 Base.base10 999 (by decide!)).2.1 (by decide!)⟩

end PrettySize
